import Mathlib

/-!
Verification of the cyphi core (subsystem.py, node.py, compute.py) against its
natural-language specification.  Python functions are shallowly embedded as
executable Lean definitions; machine floats are modelled by exact rationals,
fallible attribute accesses by `Except`.  External collaborators (utils,
models, options, network) that are not part of the shown source are modelled
from the spec where a claim needs them; such definitions carry a
`Modelled from the spec:` doc comment.
-/

set_option synthInstance.maxSize 512

deriving instance DecidableEq for Except

namespace Cyphi

/-! ## Shared basics -/

/-- Modelled from the spec: ordered two-way splits of a list (every element in
exactly one side), used as a building block for `bipartitionL`. -/
def splits {α : Type} : List α → List (List α × List α)
  | [] => [([], [])]
  | a :: as => (splits as).flatMap (fun pq => [(a :: pq.1, pq.2), (pq.1, a :: pq.2)])

/-- Modelled from the spec: `utils.bipartition` — enumeration of the unordered
bipartitions of a list, each in one orientation, whose first entry is always
the trivial whole/empty split (the head element is fixed in the first part). -/
def bipartitionL {α : Type} : List α → List (List α × List α)
  | [] => [([], [])]
  | a :: as => (splits as).map (fun pq => (a :: pq.1, pq.2))

theorem splits_ne_nil {α : Type} (l : List α) : splits l ≠ [] := by
  induction l with
  | nil => simp [splits]
  | cons a as ih =>
    simp only [splits]
    intro h
    cases hs : splits as with
    | nil => exact ih hs
    | cons x xs => simp [hs] at h

/-! ## C10: cut-independent subsystem identity (subsystem.py lines 41-117,
node.py lines 153-170)

`Subsystem.__init__` dedups and sorts the node indices, stores a cut (the null
cut when none is given) and computes `self._hash` from
`(node_indices, current_state, past_state, network)` — the cut is absent.
`Subsystem.__eq__` compares node sets, states and network.  `Node.__eq__` and
`Node.__hash__` depend only on `(network, index)`. -/

/-- A directional cut: element indices split into severed / intact
(models.Cut is outside src; spec: "a directional bipartition of element
indices into severed/intact; null cut severs nothing"). -/
structure CutM where
  severed : List ℕ
  intact : List ℕ
deriving DecidableEq

/-- Observable identity of a Python `Node`: the fields `Node.__eq__` and
`Node.__hash__` may read (network, index) together with the fields they must
ignore (the connectivity matrix and tpm the node was built from, abstracted
as tags). -/
structure NodeId where
  networkId : ℕ
  index : ℕ
  cmTag : ℕ
  tpmTag : ℕ
deriving DecidableEq

/-- `Node.__eq__`: same index and same network; the cm / tpm tags are ignored. -/
def nodeEqM (a b : NodeId) : Bool :=
  a.index == b.index && a.networkId == b.networkId

/-- `Node.__init__`: `self._hash = hash((self.network, self.index))`. -/
def nodeHashM (a : NodeId) : ℕ × ℕ :=
  (a.networkId, a.index)

/-- The observables of a Python `Subsystem` that `__eq__`/`__hash__` read. -/
structure SubsystemIdM where
  nodeIndices : List ℕ
  cur : List ℕ
  past : List ℕ
  networkId : ℕ
  cut : CutM
  nodes : List NodeId
deriving DecidableEq

/-- `tuple(sorted(list(set(node_indices))))` from `Subsystem.__init__`. -/
def dedupSort (l : List ℕ) : List ℕ :=
  l.toFinset.sort (· ≤ ·)

/-- `Subsystem.__init__`: dedup/sort the indices; with no cut keep the
network's nodes and the null cut, otherwise store the given cut and rebuild
`Node(network, i, cm)` for each index — either way a node's identity is
(network, index). The cm/tpm tags record which matrix each node was built
from (0 = the network's own matrix, 1 = the cut-applied matrix). -/
def mkSubsystemId (raw cur past : List ℕ) (networkId : ℕ)
    (cutOpt : Option (List ℕ × List ℕ)) : SubsystemIdM :=
  let idx := dedupSort raw
  match cutOpt with
  | none =>
      { nodeIndices := idx, cur := cur, past := past, networkId := networkId,
        cut := ⟨[], idx⟩,
        nodes := idx.map (fun i => ⟨networkId, i, 0, 0⟩) }
  | some c =>
      { nodeIndices := idx, cur := cur, past := past, networkId := networkId,
        cut := ⟨c.1, c.2⟩,
        nodes := idx.map (fun i => ⟨networkId, i, 1, 1⟩) }

/-- `Subsystem.__hash__` reads `self._hash = hash((node_indices,
current_state, past_state, network))`; we model the hash by the hashed tuple
itself (Python hash equality follows from tuple equality). -/
def subsystemHashM (s : SubsystemIdM) : List ℕ × List ℕ × List ℕ × ℕ :=
  (s.nodeIndices, s.cur, s.past, s.networkId)

/-- `Subsystem.__eq__`: set of nodes (under `Node.__eq__`), states and
network. Node sets are compared through the node identities that
`Node.__eq__`/`Node.__hash__` observe. -/
def subsystemEqM (a b : SubsystemIdM) : Bool :=
  decide ((a.nodes.map nodeHashM).toFinset = (b.nodes.map nodeHashM).toFinset)
    && a.cur == b.cur && a.past == b.past && a.networkId == b.networkId

/-- C10: two subsystems over the same node indices, states and network but
different cuts have equal hashes and compare equal; node equality and hash
depend only on (network, index), ignoring the connectivity matrix and tensor
tags. -/
theorem C10_cut_independent_identity
    (raw cur past : List ℕ) (networkId : ℕ)
    (c1 c2 : Option (List ℕ × List ℕ)) :
    subsystemHashM (mkSubsystemId raw cur past networkId c1)
      = subsystemHashM (mkSubsystemId raw cur past networkId c2)
    ∧ subsystemEqM (mkSubsystemId raw cur past networkId c1)
        (mkSubsystemId raw cur past networkId c2) = true
    ∧ (∀ net i t1 t2 u1 u2 : ℕ,
        nodeEqM ⟨net, i, t1, u1⟩ ⟨net, i, t2, u2⟩ = true
        ∧ nodeHashM ⟨net, i, t1, u1⟩ = nodeHashM ⟨net, i, t2, u2⟩) := by
  refine ⟨?_, ?_, ?_⟩
  · cases c1 <;> cases c2 <;> rfl
  · have hmap : ∀ (c : Option (List ℕ × List ℕ)),
        ((mkSubsystemId raw cur past networkId c).nodes.map nodeHashM)
          = (dedupSort raw).map (fun i => (networkId, i)) := by
      intro c
      cases c <;> simp [mkSubsystemId, nodeHashM]
    simp only [subsystemEqM, hmap, Bool.and_eq_true, beq_iff_eq, decide_eq_true_eq]
    cases c1 <;> cases c2 <;> simp [mkSubsystemId]
  · intro net i t1 t2 u1 u2
    exact ⟨by simp [nodeEqM], rfl⟩

/-! ## C1: cut-specific node reconstruction (subsystem.py lines 49-60,
node.py lines 44-94)

With a non-null cut, `Subsystem.__init__` computes
`cm = utils.apply_cut(self.cut, network.connectivity_matrix)` and builds
`Node(network, i, cm)`.  `Node.__init__` stores the passed matrix in
`self.connectivity_matrix`, but the list comprehensions that fill
`self._input_indices` / `self._output_indices` read
`self.network.connectivity_matrix[i][self.index]` — the network's original
matrix — and those indices drive which axes of the joint tensor are averaged
out when the stacked (off, on) tpm is built. -/

/-- A Boolean adjacency matrix over `n` nodes; entry `M i j` is the edge
`i → j`. -/
def CMat (n : ℕ) : Type := Fin n → Fin n → Bool

/-- Modelled from the spec: `utils.apply_cut` — "a cut-application function
producing a new adjacency matrix with severed edges zeroed", the severed
edges being all connections from the cut's severed part to its intact part. -/
def applyCut {n : ℕ} (cut : CutM) (M : CMat n) : CMat n :=
  fun i j => if i.val ∈ cut.severed ∧ j.val ∈ cut.intact then false else M i j

/-- The matrices a `Node` is constructed over: the parent network's matrix
(`self.network.connectivity_matrix`) and the one passed to the constructor
and stored as `self.connectivity_matrix`. -/
structure NodeCtx (n : ℕ) where
  netCm : Option (CMat n)
  cmSelf : Option (CMat n)

/-- `Node.__init__` lines 49-57: when `self.connectivity_matrix` is not None,
the input indices are collected from `self.network.connectivity_matrix`
(the network's matrix, not the stored one); otherwise every node counts as
an input. -/
def nodeInputIndices {n : ℕ} (ctx : NodeCtx n) (i : Fin n) : Finset (Fin n) :=
  match ctx.cmSelf with
  | some _ =>
      match ctx.netCm with
      | some m => Finset.univ.filter (fun j => m j i)
      | none => ∅
  | none => Finset.univ

/-- `Node.__init__` lines 55-57, same shape for the output indices. -/
def nodeOutputIndices {n : ℕ} (ctx : NodeCtx n) (i : Fin n) : Finset (Fin n) :=
  match ctx.cmSelf with
  | some _ =>
      match ctx.netCm with
      | some m => Finset.univ.filter (fun j => m i j)
      | none => ∅
  | none => Finset.univ

/-- What the spec prescribes (its words: the rebuilt element's input set is
"determined by the cut-applied adjacency matrix passed to the element's
constructor"): read the stored `self.connectivity_matrix`. -/
def nodeInputIndicesSpec {n : ℕ} (ctx : NodeCtx n) (i : Fin n) : Finset (Fin n) :=
  match ctx.cmSelf with
  | some m => Finset.univ.filter (fun j => m j i)
  | none => Finset.univ

/-- The node context produced by the cut branch of `Subsystem.__init__`:
the network matrix stays `netCm`, the constructor receives the cut-applied
matrix. -/
def cutNodeCtx {n : ℕ} (netCm : CMat n) (cut : CutM) : NodeCtx n :=
  { netCm := some netCm, cmSelf := some (applyCut cut netCm) }

/-- The adjacency matrix of the two-node network with the single edge 0 → 1. -/
def cmChain2 : CMat 2 :=
  fun i j => i.val == 0 && j.val == 1

/-- C1 (code bug): for the two-node chain network cut by severing 0 → 1, the
rebuilt element 1's input set still contains node 0 — it is taken from the
network's original adjacency matrix even though the cut-applied matrix passed
to the constructor has no edge into node 1; hence the severed axis is not
removed from the element's input set (and so not treated as a non-input axis
of its transition tensor), contradicting the claim. -/
theorem C1_node_inputs_ignore_cut_matrix :
    applyCut ⟨[0], [1]⟩ cmChain2 0 1 = false
    ∧ nodeInputIndices (cutNodeCtx cmChain2 ⟨[0], [1]⟩) 1 = {0}
    ∧ nodeInputIndicesSpec (cutNodeCtx cmChain2 ⟨[0], [1]⟩) 1 = ∅
    ∧ nodeInputIndices (cutNodeCtx cmChain2 ⟨[0], [1]⟩) 1
        ≠ nodeInputIndicesSpec (cutNodeCtx cmChain2 ⟨[0], [1]⟩) 1 := by
  refine ⟨by decide, by decide, by decide, by decide⟩

/-! ## C2 / C7: connectivity pre-screens (subsystem.py lines 553-592,
compute.py lines 104-114 and 155-200)

`Subsystem._test_connections(axis, nodes1, nodes2)` returns `True` when the
network has no connectivity matrix or either list is empty, and otherwise
evaluates `[node.index for node in nodes1]`.  Its callers
(`find_mice.not_trivially_reducible` and `_concept`) pass tuples of plain
integer indices, and a Python `int` has no `.index` attribute, so the
comprehension raises `AttributeError`.  We model Python values that may or
may not carry a `.index` attribute, and attribute access as `Except`. -/

/-- A Python value as seen by `_test_connections`: a plain `int` (no `.index`
attribute) or a `Node` (whose `.index` is its integer index). -/
inductive PyVal where
  | pyInt (v : ℕ)
  | pyNode (index : ℕ)
deriving DecidableEq

/-- Attribute access `v.index`: succeeds on a Node, raises `AttributeError`
on an int. -/
def getIndexAttr : PyVal → Except Unit ℕ
  | .pyInt _ => .error ()
  | .pyNode i => .ok i

/-- An unbounded Boolean adjacency matrix (entries outside the network are
irrelevant to the claims). -/
def CMatN : Type := ℕ → ℕ → Bool

/-- The list comprehension `[node.index for node in nodes]`: collect the
`.index` attributes left to right, propagating an `AttributeError`. -/
def collectIndices : List PyVal → Except Unit (List ℕ)
  | [] => .ok []
  | v :: vs =>
      match getIndexAttr v with
      | .error e => .error e
      | .ok i =>
          match collectIndices vs with
          | .error e => .error e
          | .ok rest => .ok (i :: rest)

/-- `Subsystem._test_connections`: `True` if the matrix is None or either
list is empty; otherwise gather `.index` from both lists (possibly raising)
and test the connectivity submatrix — axis 0 sums over rows (every column,
i.e. every node of `nodes2`, has an input from some node of `nodes1`),
axis 1 sums over columns (every node of `nodes1` reaches some node of
`nodes2`). -/
def testConnections : Option CMatN → ℕ → List PyVal → List PyVal →
    Except Unit Bool
  | none, _, _, _ => .ok true
  | some m, axis, nodes1, nodes2 =>
      if nodes1 = [] ∨ nodes2 = [] then .ok true
      else
        match collectIndices nodes1 with
        | .error e => .error e
        | .ok idx1 =>
            match collectIndices nodes2 with
            | .error e => .error e
            | .ok idx2 =>
                if axis = 0 then
                  .ok (idx2.all (fun j => idx1.any (fun i => m i j)))
                else
                  .ok (idx1.all (fun i => idx2.any (fun j => m i j)))

/-- `Subsystem._all_connect_to_any(nodes1, nodes2)` =
`self._test_connections(1, nodes1, nodes2)`. -/
def allConnectToAny (cm : Option CMatN) (nodes1 nodes2 : List PyVal) :
    Except Unit Bool :=
  testConnections cm 1 nodes1 nodes2

/-- `Subsystem._any_connect_to_all(nodes1, nodes2)` =
`self._test_connections(0, nodes1, nodes2)`. -/
def anyConnectToAll (cm : Option CMatN) (nodes1 nodes2 : List PyVal) :
    Except Unit Bool :=
  testConnections cm 0 nodes1 nodes2

/-- The connectivity observables of a subsystem that the pre-screens read. -/
structure SubsysConn where
  cm : Option CMatN
  nodeIdx : List ℕ
deriving Inhabited

/-- `find_mice.not_trivially_reducible` (compute.py lines 106-113): the
purview indices and mechanism indices — both integer tuples — are handed to
the direction-appropriate connectivity test.  `dirPast = true` stands for
`DIRECTIONS[PAST]`. -/
def notTriviallyReducible (sub : SubsysConn) (dirPast : Bool)
    (mechanismIdx purviewIdx : List ℕ) : Except Unit Bool :=
  if dirPast then
    allConnectToAny sub.cm (purviewIdx.map .pyInt) (mechanismIdx.map .pyInt)
  else
    allConnectToAny sub.cm (mechanismIdx.map .pyInt) (purviewIdx.map .pyInt)

/-- `_concept` (compute.py lines 169-192): first the connectivity guard
(`not (A and B)` with Python short-circuiting, on integer index tuples);
when it passes, φ is the minimum of the cause and effect core φ values
(abstracted as inputs, since the claims about this function concern the
guard and the φ combination) and the concept is discarded when φ < ε.
The result is `none` for a discarded concept, `some φ` for a kept one. -/
def conceptM (sub : SubsysConn) (mechanismIdx : List ℕ)
    (causePhi effectPhi eps : ℚ) : Except Unit (Option ℚ) := do
  let a ← allConnectToAny sub.cm (mechanismIdx.map .pyInt)
      (sub.nodeIdx.map .pyInt)
  let cond ← if a then
      do
        let b ← anyConnectToAll sub.cm (sub.nodeIdx.map .pyInt)
            (mechanismIdx.map .pyInt)
        pure (a && b)
    else pure false
  if cond = false then
    return none
  else
    let phi := if causePhi ≤ effectPhi then causePhi else effectPhi
    if phi < eps then
      return none
    else
      return some phi

/-- C2: with a connectivity matrix present, the pre-screens receive integer
tuples and raise an attribute error for every nonempty mechanism (in
`_concept`, hence `constellation` and `big_mip`) and every nonempty purview
candidate (in `find_mice`); with the matrix None or either list empty,
`_test_connections` returns True unconditionally. -/
theorem C2_connectivity_prescreens_raise
    (m : CMatN) (cm : Option CMatN) (axis : ℕ)
    (l1 l2 mech pur : List ℕ) (sub : SubsysConn)
    (dirPast : Bool) (cphi ephi eps : ℚ) :
    (l1 ≠ [] → l2 ≠ [] →
      testConnections (some m) axis (l1.map .pyInt) (l2.map .pyInt)
        = .error ())
    ∧ (cm = none ∨ l1 = [] ∨ l2 = [] →
      testConnections cm axis (l1.map .pyInt) (l2.map .pyInt) = .ok true)
    ∧ (sub.cm = some m → mech ≠ [] → sub.nodeIdx ≠ [] →
      conceptM sub mech cphi ephi eps = .error ())
    ∧ (sub.cm = some m → mech ≠ [] → pur ≠ [] →
      notTriviallyReducible sub dirPast mech pur = .error ()) := by
  have hcoll : ∀ (l : List ℕ), l ≠ [] →
      collectIndices (l.map PyVal.pyInt) = .error () := by
    intro l hl
    cases l with
    | nil => exact absurd rfl hl
    | cons a as => rfl
  have herr : ∀ (ax : ℕ) (l1 l2 : List ℕ), l1 ≠ [] → l2 ≠ [] →
      testConnections (some m) ax (l1.map .pyInt) (l2.map .pyInt)
        = .error () := by
    intro ax l1 l2 h1 h2
    have h1' : l1.map PyVal.pyInt ≠ [] := by simpa using h1
    have h2' : l2.map PyVal.pyInt ≠ [] := by simpa using h2
    simp only [testConnections]
    rw [if_neg (by simp [h1', h2'])]
    rw [hcoll l1 h1]
  refine ⟨herr axis l1 l2, ?_, ?_, ?_⟩
  · rintro (rfl | rfl | rfl)
    · rfl
    · cases cm with
      | none => rfl
      | some m' =>
          simp only [testConnections]
          rw [if_pos (by simp)]
    · cases cm with
      | none => rfl
      | some m' =>
          simp only [testConnections]
          rw [if_pos (by simp)]
  · intro hcm hm hn
    simp only [conceptM, allConnectToAny, hcm]
    rw [herr 1 mech sub.nodeIdx hm hn]
    rfl
  · intro hcm hm hp
    cases dirPast
    · simp only [notTriviallyReducible, allConnectToAny, hcm,
        Bool.false_eq_true, ite_false]
      rw [herr 1 mech pur hm hp]
    · simp only [notTriviallyReducible, allConnectToAny, hcm, ite_true]
      rw [herr 1 pur mech hp hm]

/-- Witness for C2 at a concrete instance: the all-ones 2×2 matrix, lists
`[0]` and `[1]`, a subsystem carrying that matrix. -/
theorem C2_connectivity_prescreens_raise_witness :
    ([0] ≠ ([] : List ℕ))
    ∧ testConnections (some (fun _ _ => true)) 1
        ([0].map .pyInt) ([1].map .pyInt) = .error ()
    ∧ conceptM ⟨some (fun _ _ => true), [0, 1]⟩ [0] 1 1 1 = .error () := by
  have h := C2_connectivity_prescreens_raise (fun _ _ => true)
    (some (fun _ _ => true)) 1 [0] [1] [0] [1]
    ⟨some (fun _ _ => true), [0, 1]⟩ true 1 1 1
  exact ⟨by decide, h.1 (by decide) (by decide),
    h.2.2.1 rfl (by decide) (by decide)⟩

/-- C7 (code bug): for a subsystem carrying a connectivity matrix with an
input-less mechanism element — exactly the situation the claim says is
discarded from connectivity alone — `_concept` raises an `AttributeError`
inside `_all_connect_to_any` (integer indices are passed where `Node`
objects are expected) instead of returning the discard sentinel.  The
connectivity-based discard is only ever vacuously reachable (matrix None
makes the guard return True unconditionally). -/
theorem C7_concept_guard_raises_instead_of_discarding :
    conceptM ⟨some (fun _ _ => false), [0, 1]⟩ [0] 1 1 1 = .error ()
    ∧ conceptM ⟨none, [0, 1]⟩ [0] 1 1 1 = .ok (some 1)
    ∧ conceptM ⟨none, [0, 1]⟩ [0] 0 1 1 = .ok none := by
  exact ⟨by decide, by decide, by decide⟩

/-! ## C3: process-wide Mice cache (compute.py lines 27-66 and 91-128)

`_cache_mice` inserts only if the key is absent; `_get_cached_mice` returns
a hit only when the reuse predicate for the subsystem's current cut holds;
`find_mice` consults the cache first and stores its freshly computed Mice,
whatever cut the subsystem carries.  The key
`(hash(subsystem), direction, mechanism_indices)` is modelled by the hashed
components themselves; `hash(subsystem)` excludes the cut (see C10). -/

/-- The cut-independent identity part of a Mice cache key. -/
abbrev SubsysIdentKey : Type := List ℕ × List ℕ × List ℕ × ℕ

/-- A subsystem as the Mice cache sees it: a cut-independent identity plus
the current cut. -/
structure SubsysCache where
  ident : List ℕ × List ℕ × List ℕ × ℕ
  cut : CutM

/-- The Mice fields the cache logic reads: the winning purview (and a φ so
the value is not degenerate). -/
structure MiceM where
  purview : List ℕ
  phi : ℚ
deriving DecidableEq

/-- A Mice cache key: `(hash(subsystem), direction, mechanism_indices)`;
the direction is `true` for past/cause. -/
abbrev MiceKey : Type := (List ℕ × List ℕ × List ℕ × ℕ) × Bool × List ℕ

/-- `_get_mice_key`. -/
def getMiceKey (sub : SubsysCache) (dirPast : Bool) (mech : List ℕ) :
    MiceKey :=
  (sub.ident, dirPast, mech)

/-- The process-wide `_mice_cache`, as an association list. -/
abbrev MiceCache : Type := List (MiceKey × MiceM)

/-- Key lookup in the cache. -/
def cacheFind : MiceCache → MiceKey → Option MiceM
  | [], _ => none
  | (k, v) :: rest, key => if k = key then some v else cacheFind rest key

/-- `_cache_mice`: insert only when the key is not present. -/
def cacheMice (cache : MiceCache) (sub : SubsysCache) (dirPast : Bool)
    (mech : List ℕ) (mice : MiceM) : MiceCache :=
  let key := getMiceKey sub dirPast mech
  match cacheFind cache key with
  | some _ => cache
  | none => (key, mice) :: cache

/-- The cut-reuse predicate of `_get_cached_mice`: for the past/cause
direction every mechanism index is severed or every cached purview index is
intact; for the future/effect direction every mechanism index is intact or
every cached purview index is severed. -/
def miceReusable (dirPast : Bool) (cut : CutM) (mech : List ℕ)
    (cached : MiceM) : Bool :=
  if dirPast then
    mech.all (fun i => i ∈ cut.severed)
      || cached.purview.all (fun i => i ∈ cut.intact)
  else
    mech.all (fun i => i ∈ cut.intact)
      || cached.purview.all (fun i => i ∈ cut.severed)

/-- `_get_cached_mice`: a cached Mice is returned iff the key is present and
the reuse predicate for the subsystem's cut holds. -/
def getCachedMice (cache : MiceCache) (sub : SubsysCache) (dirPast : Bool)
    (mech : List ℕ) : Option MiceM :=
  match cacheFind cache (getMiceKey sub dirPast mech) with
  | none => none
  | some cached =>
      if miceReusable dirPast sub.cut mech cached then some cached else none

/-- `find_mice`, restricted to its cache interaction: on a hit return the
cached Mice (second component true); on a miss run the full search
(abstracted as `compute`, which receives the subsystem including its current
cut) and store the result. -/
def findMiceCached (compute : SubsysCache → Bool → List ℕ → MiceM)
    (cache : MiceCache) (sub : SubsysCache) (dirPast : Bool)
    (mech : List ℕ) : MiceM × Bool × MiceCache :=
  match getCachedMice cache sub dirPast mech with
  | some cached => (cached, true, cache)
  | none =>
      let mice := compute sub dirPast mech
      (mice, false, cacheMice cache sub dirPast mech mice)

theorem getCachedMice_spec (cache : MiceCache) (sub : SubsysCache)
    (dirPast : Bool) (mech : List ℕ) (cached : MiceM) :
    getCachedMice cache sub dirPast mech = some cached
      ↔ cacheFind cache (getMiceKey sub dirPast mech) = some cached
        ∧ miceReusable dirPast sub.cut mech cached = true := by
  cases hc : cacheFind cache (getMiceKey sub dirPast mech) with
  | none => simp [getCachedMice, hc]
  | some v =>
      by_cases hr : miceReusable dirPast sub.cut mech v = true
      · simp only [getCachedMice, hc, hr, if_true]
        constructor
        · intro h
          cases h
          exact ⟨rfl, hr⟩
        · rintro ⟨h1, h2⟩
          cases h1
          rfl
      · simp only [getCachedMice, hc, hr, if_false]
        constructor
        · intro h
          cases h
        · rintro ⟨h1, h2⟩
          cases h1
          exact absurd h2 hr

/-- C3 (amended): the process-wide Mice cache has store-once semantics — an
existing entry is never overwritten, so every cached value is the first one
computed for its key (under whatever cut that subsystem carried; nothing
restricts the first computation to the null cut) — and `find_mice` on an
equal-identity subsystem returns the cached Mice iff the key is present and
the stated severed/intact predicate for the subsystem's current cut holds. -/
theorem C3_mice_cache_store_once_and_reuse
    (compute : SubsysCache → Bool → List ℕ → MiceM)
    (cache : MiceCache) (sub : SubsysCache) (dirPast : Bool)
    (mech : List ℕ) (m0 : MiceM) :
    (cacheFind cache (getMiceKey sub dirPast mech) = some m0 →
      ∀ mice, cacheMice cache sub dirPast mech mice = cache)
    ∧ (∀ cached,
        (findMiceCached compute cache sub dirPast mech
            = (cached, true, cache)
          ↔ cacheFind cache (getMiceKey sub dirPast mech) = some cached
            ∧ miceReusable dirPast sub.cut mech cached = true))
    ∧ (getCachedMice cache sub dirPast mech = none →
        findMiceCached compute cache sub dirPast mech
          = (compute sub dirPast mech, false,
             cacheMice cache sub dirPast mech (compute sub dirPast mech))) := by
  refine ⟨?_, ?_, ?_⟩
  · intro h mice
    simp [cacheMice, h]
  · intro cached
    constructor
    · intro h
      cases hg : getCachedMice cache sub dirPast mech with
      | none =>
          exfalso
          simp only [findMiceCached, hg] at h
          exact Bool.false_ne_true (congrArg (fun t => t.2.1) h)
      | some v =>
          simp only [findMiceCached, hg] at h
          have hv : v = cached := congrArg (fun t => t.1) h
          subst hv
          exact (getCachedMice_spec cache sub dirPast mech v).mp hg
    · rintro ⟨hc, hr⟩
      have hg : getCachedMice cache sub dirPast mech = some cached :=
        (getCachedMice_spec cache sub dirPast mech cached).mpr ⟨hc, hr⟩
      simp [findMiceCached, hg]
  · intro h
    simp [findMiceCached, h]

/-- Witness for C3 at a concrete instance: a one-entry cache over identity
`([0,1],[1,0],[0,1],7)`, cause direction, mechanism `[0]`, a cut severing 0;
the cached purview `[1]` is intact, so the hit is returned unchanged, and
re-storing leaves the cache as it is. -/
theorem C3_mice_cache_store_once_and_reuse_witness :
    cacheMice [((([0, 1], [1, 0], [0, 1], 7), true, [0]), ⟨[1], 1⟩)]
        ⟨([0, 1], [1, 0], [0, 1], 7), ⟨[0], [1]⟩⟩ true [0] ⟨[9], 2⟩
      = [((([0, 1], [1, 0], [0, 1], 7), true, [0]), ⟨[1], 1⟩)]
    ∧ findMiceCached (fun _ _ _ => ⟨[9], 2⟩)
        [((([0, 1], [1, 0], [0, 1], 7), true, [0]), ⟨[1], 1⟩)]
        ⟨([0, 1], [1, 0], [0, 1], 7), ⟨[0], [1]⟩⟩ true [0]
      = (⟨[1], 1⟩, true,
         [((([0, 1], [1, 0], [0, 1], 7), true, [0]), ⟨[1], 1⟩)]) := by
  have h := C3_mice_cache_store_once_and_reuse (fun _ _ _ => ⟨[9], 2⟩)
    [((([0, 1], [1, 0], [0, 1], 7), true, [0]), ⟨[1], 1⟩)]
    ⟨([0, 1], [1, 0], [0, 1], 7), ⟨[0], [1]⟩⟩ true [0] ⟨[1], 1⟩
  exact ⟨h.1 (by decide) ⟨[9], 2⟩,
    (h.2.1 ⟨[1], 1⟩).mpr ⟨by decide, by decide⟩⟩

/-- C3 counterexample to the claim as stated: with an empty cache, a
`find_mice` call on a subsystem carrying the non-null cut `⟨[0], [1]⟩`
computes under that cut and stores the result; the cache now holds a value
that was not computed under the null cut, refuting "every cached value was
computed under the null cut". -/
theorem C3_cut_computation_is_cached_counterexample :
    (findMiceCached (fun s _ _ => ⟨s.cut.severed, 1⟩) []
        ⟨([0, 1], [1, 0], [0, 1], 7), ⟨[0], [1]⟩⟩ true [0]).2.2
      = [((([0, 1], [1, 0], [0, 1], 7), true, [0]), ⟨[0], 1⟩)]
    ∧ (⟨[0], [1]⟩ : CutM) ≠ ⟨[], [0, 1]⟩ := by
  exact ⟨by decide, by decide⟩

/-! ## C4: find_mip (subsystem.py lines 417-503)

`_mip_bipartition` pairs every purview bipartition (in both orientations)
with every mechanism bipartition, keeping the pairs in which neither part is
empty on both sides.  `find_mip` walks the candidates: distance < ε returns
None ("no MIP") immediately; otherwise a candidate replaces the running
minimum only when it is more than ε smaller; with no candidates the null MIP
(φ = 0) is returned.  The repertoire product and `utils.hamming_emd` are
external numeric collaborators, so the per-candidate distance is abstracted
as an oracle `d` — `find_mip`'s control flow reads nothing else of it. -/

/-- A `models.Part`: a mechanism part paired with a purview part. -/
structure PartM where
  mechanism : List ℕ
  purview : List ℕ
deriving DecidableEq

/-- `Subsystem._mip_bipartition`: denominators are the purview bipartitions
followed by their reversals; numerators are the mechanism bipartitions; a
pair is kept when each side of the partition has a nonempty mechanism-or-
purview part. -/
def mipBipartition (mechanism purview : List ℕ) : List (PartM × PartM) :=
  let pb := bipartitionL purview
  (pb ++ pb.map (fun x => (x.2, x.1))).flatMap (fun den =>
    (bipartitionL mechanism).filterMap (fun num =>
      if num.1.length + den.1.length > 0 ∧ num.2.length + den.2.length > 0
      then some (⟨num.1, den.1⟩, ⟨num.2, den.2⟩)
      else none))

/-- The loop of `find_mip`: the second argument is `phi_min` (`none` = the
initial +inf, in which case the first surviving candidate always becomes the
minimum), the third the φ of the Mip tracked so far (0 for the initial null
MIP); a candidate with distance < ε returns `none` (Python `None`,
"reducible") immediately; a later candidate replaces the running minimum
only when it is more than ε smaller. -/
def findMipGo (eps : ℚ) (d : PartM × PartM → ℚ) :
    List (PartM × PartM) → Option ℚ → ℚ → Option ℚ
  | [], _, m => some m
  | c :: rest, none, _ =>
      if d c < eps then none
      else findMipGo eps d rest (some (d c)) (d c)
  | c :: rest, some q, m =>
      if d c < eps then none
      else if q - d c > eps then findMipGo eps d rest (some (d c)) (d c)
      else findMipGo eps d rest (some q) m

/-- `find_mip`, projected to the returned φ (`none` = the Python `None`
returned for a reducible mechanism, `some φ` = a Mip with that φ). -/
def findMipPhi (eps : ℚ) (d : PartM × PartM → ℚ)
    (mechanism purview : List ℕ) : Option ℚ :=
  findMipGo eps d (mipBipartition mechanism purview) none 0

theorem splits_append_perm {α : Type} (l : List α) :
    ∀ pq ∈ splits l, (pq.1 ++ pq.2).Perm l := by
  induction l with
  | nil =>
      intro pq hpq
      simp only [splits, List.mem_singleton] at hpq
      simp [hpq]
  | cons a as ih =>
      intro pq hpq
      simp only [splits, List.mem_flatMap, List.mem_cons, List.not_mem_nil,
        or_false] at hpq
      obtain ⟨xy, hxy, hmem⟩ := hpq
      have hperm := ih xy hxy
      rcases hmem with rfl | rfl
      · simpa using hperm.cons a
      · exact List.perm_middle.trans (hperm.cons a)

theorem bipartitionL_append_perm {α : Type} (l : List α) :
    ∀ pq ∈ bipartitionL l, (pq.1 ++ pq.2).Perm l := by
  cases l with
  | nil =>
      intro pq hpq
      simp only [bipartitionL, List.mem_singleton] at hpq
      simp [hpq]
  | cons a as =>
      intro pq hpq
      simp only [bipartitionL, List.mem_map] at hpq
      obtain ⟨xy, hxy, rfl⟩ := hpq
      simpa using (splits_append_perm as xy hxy).cons a

theorem findMipGo_none_iff (eps : ℚ) (d : PartM × PartM → ℚ) :
    ∀ (l : List (PartM × PartM)) (pmin : Option ℚ) (m : ℚ),
      findMipGo eps d l pmin m = none ↔ ∃ c ∈ l, d c < eps := by
  intro l
  induction l with
  | nil => intro pmin m; simp [findMipGo]
  | cons c rest ih =>
      intro pmin m
      by_cases hc : d c < eps
      · cases pmin <;> simp [findMipGo, hc]
      · cases pmin with
        | none => simp [findMipGo, hc, ih]
        | some q =>
            by_cases hq : q - d c > eps
            · simp [findMipGo, hc, hq, ih]
            · simp [findMipGo, hc, hq, ih]

theorem findMipGo_some_bounds (eps : ℚ) (d : PartM × PartM → ℚ)
    (heps : 0 ≤ eps) :
    ∀ (l : List (PartM × PartM)) (q phi : ℚ),
      findMipGo eps d l (some q) q = some phi →
      phi ≤ q ∧ (phi = q ∨ ∃ c ∈ l, phi = d c) ∧ (∀ c ∈ l, phi ≤ d c + eps) := by
  intro l
  induction l with
  | nil =>
      intro q phi h
      simp only [findMipGo, Option.some.injEq] at h
      subst h
      exact ⟨le_refl _, Or.inl rfl, by simp⟩
  | cons c rest ih =>
      intro q phi h
      by_cases hc : d c < eps
      · simp [findMipGo, hc] at h
      · simp only [findMipGo, hc, if_false] at h
        by_cases hq : q - d c > eps
        · rw [if_pos hq] at h
          obtain ⟨h1, h2, h3⟩ := ih (d c) phi h
          have hcq : d c ≤ q := by linarith
          refine ⟨le_trans h1 hcq, ?_, ?_⟩
          · rcases h2 with h2 | ⟨c', hc', rfl⟩
            · exact Or.inr ⟨c, List.mem_cons_self c rest, h2⟩
            · exact Or.inr ⟨c', List.mem_cons_of_mem c hc', rfl⟩
          · intro c' hc'
            rcases List.mem_cons.mp hc' with rfl | hmem
            · linarith
            · exact h3 c' hmem
        · rw [if_neg hq] at h
          obtain ⟨h1, h2, h3⟩ := ih q phi h
          refine ⟨h1, ?_, ?_⟩
          · rcases h2 with h2 | ⟨c', hc', rfl⟩
            · exact Or.inl h2
            · exact Or.inr ⟨c', List.mem_cons_of_mem c hc', rfl⟩
          · intro c' hc'
            rcases List.mem_cons.mp hc' with rfl | hmem
            · have hqe : q - d c' ≤ eps := not_lt.mp hq
              linarith
            · exact h3 c' hmem

theorem findMipGo_skip_tail (eps : ℚ) (d d' : PartM × PartM → ℚ)
    (c : PartM × PartM) (hc : d c < eps) (hc' : d' c = d c) :
    ∀ (l1 l2 : List (PartM × PartM)) (pmin : Option ℚ) (m : ℚ),
      (∀ x ∈ l1, d' x = d x) →
      (∀ x ∈ l1, ¬ d x < eps) →
      findMipGo eps d' (l1 ++ c :: l2) pmin m = none := by
  intro l1
  induction l1 with
  | nil =>
      intro l2 pmin m _ _
      cases pmin <;> simp [findMipGo, hc', hc]
  | cons x xs ih =>
      intro l2 pmin m hagree hge
      have hx : d' x = d x := hagree x (List.mem_cons_self x xs)
      have hxge : ¬ d x < eps := hge x (List.mem_cons_self x xs)
      have hagree' : ∀ y ∈ xs, d' y = d y :=
        fun y hy => hagree y (List.mem_cons_of_mem x hy)
      have hge' : ∀ y ∈ xs, ¬ d y < eps :=
        fun y hy => hge y (List.mem_cons_of_mem x hy)
      cases pmin with
      | none =>
          simp only [List.cons_append, findMipGo, hx, hxge, if_false]
          exact ih l2 (some (d x)) (d x) hagree' hge'
      | some q =>
          simp only [List.cons_append, findMipGo, hx, hxge, if_false]
          by_cases hq : q - d x > eps
          · rw [if_pos hq]
            exact ih l2 (some (d x)) (d x) hagree' hge'
          · rw [if_neg hq]
            exact ih l2 (some q) m hagree' hge'

/-- C4 (amended): `find_mip` returns the "no MIP" absence value iff some
candidate of `_mip_bipartition` (each of which is a valid bipartition: both
sides nonempty and mechanism/purview elements split exactly once) has
distance < ε, deciding at the first such witness without reading the
distances of later candidates; with no candidates it returns the null MIP
with φ = 0; otherwise the returned φ is the distance of some candidate and
exceeds no candidate's distance by more than ε — it is within ε above the
true minimum, but (because a new candidate replaces the running minimum only
when more than ε smaller) not necessarily equal to it. -/
theorem C4_find_mip_search (eps : ℚ) (d : PartM × PartM → ℚ)
    (mechanism purview : List ℕ) (heps : 0 ≤ eps) :
    (findMipPhi eps d mechanism purview = none
      ↔ ∃ c ∈ mipBipartition mechanism purview, d c < eps)
    ∧ (∀ pp ∈ mipBipartition mechanism purview,
        (pp.1.mechanism ++ pp.2.mechanism).Perm mechanism
        ∧ (pp.1.purview ++ pp.2.purview).Perm purview
        ∧ pp.1.mechanism.length + pp.1.purview.length > 0
        ∧ pp.2.mechanism.length + pp.2.purview.length > 0)
    ∧ (mipBipartition mechanism purview = [] →
        findMipPhi eps d mechanism purview = some 0)
    ∧ (∀ (l1 l2 : List (PartM × PartM)) (c : PartM × PartM)
        (d' : PartM × PartM → ℚ),
        mipBipartition mechanism purview = l1 ++ c :: l2 →
        (∀ x ∈ l1, ¬ d x < eps) → d c < eps →
        (∀ x ∈ l1, d' x = d x) → d' c = d c →
        findMipPhi eps d' mechanism purview = none)
    ∧ (∀ phi : ℚ, findMipPhi eps d mechanism purview = some phi →
        mipBipartition mechanism purview ≠ [] →
        (∃ c ∈ mipBipartition mechanism purview, phi = d c)
        ∧ (∀ c ∈ mipBipartition mechanism purview, phi ≤ d c + eps)) := by
  refine ⟨findMipGo_none_iff eps d _ none 0, ?_, ?_, ?_, ?_⟩
  · intro pp hpp
    simp only [mipBipartition, List.mem_flatMap, List.mem_filterMap,
      List.mem_append, List.mem_map] at hpp
    obtain ⟨den, hden, num, hnum, hval⟩ := hpp
    by_cases hcond : num.1.length + den.1.length > 0
        ∧ num.2.length + den.2.length > 0
    · rw [if_pos hcond] at hval
      cases hval
      have hmechperm : (num.1 ++ num.2).Perm mechanism :=
        bipartitionL_append_perm mechanism num hnum
      have hpurperm : (den.1 ++ den.2).Perm purview := by
        rcases hden with hden | ⟨x, hx, rfl⟩
        · exact bipartitionL_append_perm purview den hden
        · exact List.perm_append_comm.trans (bipartitionL_append_perm purview x hx)
      exact ⟨hmechperm, hpurperm, hcond.1, hcond.2⟩
    · rw [if_neg hcond] at hval
      cases hval
  · intro hnil
    simp [findMipPhi, hnil, findMipGo]
  · intro l1 l2 c d' hsplit hge hc hagree hc'
    unfold findMipPhi
    rw [hsplit]
    exact findMipGo_skip_tail eps d d' c hc hc' l1 l2 none 0 hagree hge
  · intro phi hphi hne
    cases hl : mipBipartition mechanism purview with
    | nil => exact absurd hl hne
    | cons c rest =>
        unfold findMipPhi at hphi
        rw [hl] at hphi
        by_cases hc : d c < eps
        · simp [findMipGo, hc] at hphi
        · simp only [findMipGo, hc, if_false] at hphi
          obtain ⟨h1, h2, h3⟩ := findMipGo_some_bounds eps d heps rest (d c) phi hphi
          constructor
          · rcases h2 with h2 | ⟨c', hc', rfl⟩
            · exact ⟨c, List.mem_cons_self c rest, h2⟩
            · exact ⟨c', List.mem_cons_of_mem c hc', rfl⟩
          · intro c' hc'
            rcases List.mem_cons.mp hc' with rfl | hmem
            · linarith
            · exact h3 c' hmem

/-- Witness for C4 at a concrete instance: ε = 1, the constant-1 distance,
mechanism `[0]`, purview `[1]`. -/
theorem C4_find_mip_search_witness :
    (0 : ℚ) ≤ 1
    ∧ ((findMipPhi 1 (fun _ => 1) [0] [1] = none
        ↔ ∃ c ∈ mipBipartition [0] [1], (fun _ => (1 : ℚ)) c < 1)
      ∧ (∀ pp ∈ mipBipartition [0] [1],
          (pp.1.mechanism ++ pp.2.mechanism).Perm [0]
          ∧ (pp.1.purview ++ pp.2.purview).Perm [1]
          ∧ pp.1.mechanism.length + pp.1.purview.length > 0
          ∧ pp.2.mechanism.length + pp.2.purview.length > 0)
      ∧ (mipBipartition [0] [1] = [] →
          findMipPhi 1 (fun _ => 1) [0] [1] = some 0)
      ∧ (∀ (l1 l2 : List (PartM × PartM)) (c : PartM × PartM)
          (d' : PartM × PartM → ℚ),
          mipBipartition [0] [1] = l1 ++ c :: l2 →
          (∀ x ∈ l1, ¬ (fun _ => (1 : ℚ)) x < 1) → (fun _ => (1 : ℚ)) c < 1 →
          (∀ x ∈ l1, d' x = (fun _ => (1 : ℚ)) x) → d' c = (fun _ => (1 : ℚ)) c →
          findMipPhi 1 d' [0] [1] = none)
      ∧ (∀ phi : ℚ, findMipPhi 1 (fun _ => 1) [0] [1] = some phi →
          mipBipartition [0] [1] ≠ [] →
          (∃ c ∈ mipBipartition [0] [1], phi = (fun _ => (1 : ℚ)) c)
          ∧ (∀ c ∈ mipBipartition [0] [1], phi ≤ (fun _ => (1 : ℚ)) c + 1))) :=
  ⟨by norm_num, C4_find_mip_search 1 (fun _ => 1) [0] [1] (by norm_num)⟩

/-- The concrete distance oracle of the C4 counterexample: 4 on the
candidate whose first part has an empty purview (that is the candidate
pairing the whole mechanism against the whole purview), 5 elsewhere. -/
def dCounterC4 : PartM × PartM → ℚ :=
  fun c => if c.1.purview = [] then 4 else 5

/-- C4 counterexample to the claim as stated: with ε = 2, mechanism `[0]`,
purview `[1, 2]`, distances (5, 4, 5) over the three candidates, no
candidate is below ε, yet `find_mip` keeps φ = 5 — the second candidate's
strictly smaller distance 4 is not adopted because it is not more than ε
smaller — so the returned φ is not the true minimum over the valid
bipartitions. -/
theorem C4_phi_not_min_counterexample :
    findMipPhi 2 dCounterC4 [0] [1, 2] = some 5
    ∧ (⟨[0], []⟩, (⟨[], [1, 2]⟩ : PartM)) ∈ mipBipartition [0] [1, 2]
    ∧ dCounterC4 (⟨[0], []⟩, ⟨[], [1, 2]⟩) = 4
    ∧ (∀ c ∈ mipBipartition [0] [1, 2], ¬ dCounterC4 c < 2)
    ∧ (5 : ℚ) ≠ 4 := by
  have hcands : mipBipartition [0] [1, 2]
      = [(⟨[0], [1]⟩, ⟨[], [2]⟩), (⟨[0], []⟩, ⟨[], [1, 2]⟩),
         (⟨[0], [2]⟩, ⟨[], [1]⟩)] := rfl
  refine ⟨?_, ?_, ?_, ?_, ?_⟩
  · rw [findMipPhi, hcands]
    norm_num [findMipGo, dCounterC4]
  · rw [hcands]
    simp
  · norm_num [dCounterC4]
  · intro c hc
    rw [hcands] at hc
    rcases List.mem_cons.mp hc with rfl | hc
    · norm_num [dCounterC4]
    · rcases List.mem_cons.mp hc with rfl | hc
      · norm_num [dCounterC4]
      · rcases List.mem_cons.mp hc with rfl | hc
        · norm_num [dCounterC4]
        · cases hc
  · norm_num

/-! ## C5: _big_mip terminal cases (compute.py lines 289-313 and 356-408)

`_big_mip` checks, in order: exactly one node (`_single_node_mip`, φ = 0.5
when `SINGLE_NODES_WITH_SELFLOOPS_HAVE_PHI` else the null MIP); empty node
set (null MIP); a connectivity check on the induced submatrix using
`scipy.sparse.csgraph.connected_components` with default arguments — whose
default is `connection='weak'`, so it counts weakly connected components
even though the surrounding comments say "strongly connected"; no nontrivial
bipartition (`utils.bipartition(...)[1:]` empty, null MIP); otherwise the
minimum over the per-bipartition cut evaluations.  The cut evaluation
(`_evaluate_cut`, constellation distances) is an external numeric pipeline
here abstracted as the oracle `evalCut`. -/

/-- One expansion step of reachability inside the vertex list `l` along the
edge relation `e`. -/
def adjStep (l : List ℕ) (e : ℕ → ℕ → Bool) (s : List ℕ) : List ℕ :=
  l.filter (fun v => v ∈ s || s.any (fun u => e u v))

/-- Vertices of `l` reachable from `v` along `e` (within `l`). -/
def reachSet (l : List ℕ) (e : ℕ → ℕ → Bool) (v : ℕ) : List ℕ :=
  (adjStep l e)^[l.length] [v]

/-- Mutual reachability inside `l`. -/
def sameComp (l : List ℕ) (e : ℕ → ℕ → Bool) (u v : ℕ) : Bool :=
  decide (v ∈ reachSet l e u) && decide (u ∈ reachSet l e v)

/-- Count equivalence classes of mutual reachability over `l`: a vertex
starts a new component when no earlier vertex shares its component. -/
def compCountGo (l : List ℕ) (e : ℕ → ℕ → Bool) :
    List ℕ → List ℕ → ℕ
  | [], _ => 0
  | v :: rest, seen =>
      (if seen.any (fun u => sameComp l e u v) then 0 else 1)
        + compCountGo l e rest (v :: seen)

def compCount (l : List ℕ) (e : ℕ → ℕ → Bool) : ℕ :=
  compCountGo l e l []

/-- The component count scipy returns for the induced subgraph with its
default `connection='weak'`: components of the symmetrized relation. -/
def weakComponentCount (l : List ℕ) (e : ℕ → ℕ → Bool) : ℕ :=
  compCount l (fun u v => e u v || e v u)

/-- The strongly-connected-component count the spec (and the code's own
comment) speak of: components of mutual directed reachability. -/
def strongComponentCount (l : List ℕ) (e : ℕ → ℕ → Bool) : ℕ :=
  compCount l e

/-- The observables `_big_mip` reads from its subsystem. -/
structure SubsysBig where
  nodeIdx : List ℕ
  cm : Option (ℕ → ℕ → Bool)

/-- A BigMip, projected to its φ and whether it is the null result. -/
structure BigMipR where
  phi : ℚ
  isNull : Bool
deriving DecidableEq

/-- `_null_mip`: φ = 0, null constellations. -/
def nullMipR : BigMipR := ⟨0, true⟩

/-- Minimum of a nonempty φ list (`min(mip_candidates)`), first-found on
ties. -/
def minPhiList : ℚ → List ℚ → ℚ
  | x, [] => x
  | x, y :: ys => minPhiList (if y < x then y else x) ys

/-- `_big_mip` with the per-bipartition evaluation abstracted: single node,
empty set, >1 (weakly!) connected components of the induced connectivity,
no nontrivial bipartition, then the minimum over
`utils.bipartition(node_indices)[1:]`. -/
def bigMipM (sub : SubsysBig) (selfLoopPhi : Bool)
    (evalCut : List ℕ × List ℕ → ℚ) : BigMipR :=
  if sub.nodeIdx.length = 1 then
    (if selfLoopPhi then ⟨1/2, false⟩ else nullMipR)
  else if sub.nodeIdx = [] then nullMipR
  else if (match sub.cm with
           | some e => decide (1 < weakComponentCount sub.nodeIdx e)
           | none => false) then nullMipR
  else
    match (bipartitionL sub.nodeIdx).tail with
    | [] => nullMipR
    | b :: bs => ⟨minPhiList (evalCut b) (bs.map evalCut), false⟩

/-- The two-node chain 0 → 1: two strongly connected components but a single
weakly connected one. -/
def chainE : ℕ → ℕ → Bool :=
  fun u v => u == 0 && v == 1

/-- C5 (code bug): on the subsystem (0, 1) of the chain network 0 → 1 the
induced connectivity has two strongly connected components, so the claim
requires the null BigMip — but `connected_components` is called with
scipy's default `connection='weak'`, counts one component, and `_big_mip`
proceeds to the full cut search (a non-null result).  The neighbouring
terminal cases hold as claimed: the empty subsystem returns the null MIP,
and with every cut evaluation equal to 1 the search branch returns φ = 1
(nonnegative). -/
theorem C5_scc_check_counts_weak_components :
    strongComponentCount [0, 1] chainE = 2
    ∧ weakComponentCount [0, 1] chainE = 1
    ∧ bigMipM ⟨[0, 1], some chainE⟩ false (fun _ => 1) = ⟨1, false⟩
    ∧ bigMipM ⟨[], some chainE⟩ false (fun _ => 1) = nullMipR := by
  refine ⟨by decide, by decide, by decide, by decide⟩

/-! ## C6 / C9: constellation distance mass vectors (compute.py lines
228-276)

`constellation_distance` takes the generalized-EMD branch when each
constellation has concepts the other lacks.  `_constellation_distance_emd`
builds the universe shared ++ unique-to-C1 ++ unique-to-C2 ++ [null], the
two φ-mass vectors over it, computes `residual = sum(d1) - sum(d2)` and
then assigns `d2[-1] = residual` when positive but `d1[-1] = residual` —
the *negative* number itself — when negative.  Concepts are modelled by
identifiers with a φ assignment; the construction below is the part of the
function up to the `utils.emd` call. -/

/-- Python `xs[-1] = r`: replace the last element. -/
def setLastQ : List ℚ → ℚ → List ℚ
  | [], _ => []
  | [_], r => [r]
  | x :: y :: xs, r => x :: setLastQ (y :: xs) r

/-- The mass-vector construction of `_constellation_distance_emd` (with the
unique-concept lists computed by `constellation_distance` at lines 266-267):
universe, φ-mass vectors, and the signed-residual adjustment. -/
def constellationMassVectors (phi : ℕ → ℚ) (c1 c2 : List ℕ) (nullc : ℕ) :
    List ℚ × List ℚ :=
  let uniqueC1 := c1.filter (fun c => c ∉ c2)
  let uniqueC2 := c2.filter (fun c => c ∉ c1)
  let shared := c1.filter (fun c => c ∈ c2)
  let allConcepts := shared ++ uniqueC1 ++ uniqueC2 ++ [nullc]
  let d1 := allConcepts.map (fun c => if c ∈ c1 then phi c else 0)
  let d2 := allConcepts.map (fun c => if c ∈ c2 then phi c else 0)
  let residual := d1.sum - d2.sum
  if residual > 0 then (d1, setLastQ d2 residual)
  else if residual < 0 then (setLastQ d1 residual, d2)
  else (d1, d2)

/-- The concrete φ assignment of the C6/C9 failing input: concept 10 has
φ = 1, concept 20 has φ = 2 (99 is the null concept, φ = 0). -/
def phiEx : ℕ → ℚ :=
  fun c => if c = 10 then 1 else if c = 20 then 2 else 0

/-- C6 (code bug): for constellations A = {concept 10, φ=1} and
B = {concept 20, φ=2} (disjoint, so the EMD branch is taken), the residual
is −1 and the code writes it — negative — into A's null slot: the adjusted
vectors are ([1, 0, −1], [0, 2, 0]), whose sums 0 and 2 differ and whose
first vector has a negative entry, contradicting the claimed conservation
and nonnegativity.  (With the larger side first the adjustment does balance:
([2, 0, 0], [0, 1, 1]).) -/
theorem C6_negative_residual_breaks_balance :
    constellationMassVectors phiEx [10] [20] 99 = ([1, 0, -1], [0, 2, 0])
    ∧ ([1, 0, -1] : List ℚ).sum ≠ ([0, 2, 0] : List ℚ).sum
    ∧ (-1 : ℚ) ∈ ([1, 0, -1] : List ℚ)
    ∧ (-1 : ℚ) < 0
    ∧ constellationMassVectors phiEx [20] [10] 99 = ([2, 0, 0], [0, 1, 1]) := by
  have h1 : constellationMassVectors phiEx [10] [20] 99
      = ([1, 0, -1], [0, 2, 0]) := by
    simp only [constellationMassVectors, phiEx]
    norm_num [setLastQ]
  have h2 : constellationMassVectors phiEx [20] [10] 99
      = ([2, 0, 0], [0, 1, 1]) := by
    simp only [constellationMassVectors, phiEx]
    norm_num [setLastQ]
  refine ⟨h1, by norm_num, by norm_num, by norm_num, h2⟩

/-- C9 (code bug): the two argument orders of `constellation_distance` on
the same pair of constellations hand the EMD solver different mass-vector
pairs, not mirrored ones.  For A = {10: φ=1}, B = {20: φ=2} with null
concept 99: the (A, B) call passes A-masses [1, 0, −1] (universe
[10, 20, 99]) and B-masses [0, 2, 0], while the (B, A) call passes B-masses
[2, 0, 0] (universe [20, 10, 99]) and A-masses [0, 1, 1] — aligned to the
first universe the A-side null slot is −1 in one call and +1 in the other,
and one call feeds the solver a negative mass, so the two orders cannot
agree as the claimed symmetry requires.  (The diagonal
`constellation_distance(C, C, null)` case never reaches this branch: both
unique lists are empty and the simple branch sums over an empty "destroyed"
list, giving 0.) -/
theorem C9_swapped_calls_pass_different_masses :
    constellationMassVectors phiEx [10] [20] 99 = ([1, 0, -1], [0, 2, 0])
    ∧ constellationMassVectors phiEx [20] [10] 99 = ([2, 0, 0], [0, 1, 1])
    ∧ ([1, 0, -1] : List ℚ).getLast? = some (-1)
    ∧ ([0, 1, 1] : List ℚ).getLast? = some 1
    ∧ (-1 : ℚ) ≠ 1 := by
  have h1 : constellationMassVectors phiEx [10] [20] 99
      = ([1, 0, -1], [0, 2, 0]) := by
    simp only [constellationMassVectors, phiEx]
    norm_num [setLastQ]
  have h2 : constellationMassVectors phiEx [20] [10] 99
      = ([2, 0, 0], [0, 1, 1]) := by
    simp only [constellationMassVectors, phiEx]
    norm_num [setLastQ]
  refine ⟨h1, h2, rfl, rfl, by norm_num⟩

/-! ## C8: repertoire normalization (subsystem.py lines 120-334,
node.py lines 69-94)

Tensors over the network's binary state space are embedded as rational-
valued functions of the state vector; an axis the numpy array keeps as a
singleton corresponds to a coordinate the function is constant in (numpy
broadcast = pointwise application).  Averaging an axis out
(`t.sum(i, keepdims=True) / t.shape[i]`) and conditioning
(`t[..., [state], ...]`) become `margAxis` and `condAxis`.  `np.sum` over an
array whose non-purview axes are singletons equals the sum over all state
vectors divided by the multiplicity `2 ^ (n - |purview|)` of each stored
entry, which is how `npSum` is defined. -/

/-- A network state: one Boolean per node. -/
abbrev StateV (n : ℕ) : Type := Fin n → Bool

/-- A tensor over past-state axes. -/
abbrev Tensor (n : ℕ) : Type := StateV n → ℚ

/-- A tensor over past-state axes (first argument, the conditioning half)
and future-state axes (second argument), as `effect_repertoire` builds. -/
abbrev TensorE (n : ℕ) : Type := StateV n → StateV n → ℚ

/-- The network as the repertoire engine sees it: the joint transition
tensor (probability node `i` is on given the previous state) and an optional
adjacency matrix. -/
structure NetworkT (n : ℕ) where
  tpm : StateV n → Fin n → ℚ
  cm : Option (CMat n)

/-- Average axis `j` out, keeping it as a (broadcastable) singleton:
`t.sum(j, keepdims=True) / t.shape[j]`. -/
def margAxis {n : ℕ} (t : Tensor n) (j : Fin n) : Tensor n :=
  fun s => (t (Function.update s j false) + t (Function.update s j true)) / 2

/-- Condition axis `j` on the bit `b` (slice to the singleton `[b]`). -/
def condAxis {n : ℕ} (t : Tensor n) (j : Fin n) (b : Bool) : Tensor n :=
  fun s => t (Function.update s j b)

/-- The ascending list of the axes in `S` (the loops of the source walk axes
in index order). -/
def axisList {n : ℕ} (S : Finset (Fin n)) : List (Fin n) :=
  (List.finRange n).filter (fun j => j ∈ S)

/-- `Node._input_indices` as the code computes it: from the network's
matrix (all nodes when it is None).  C1 records that the cut-applied matrix
passed to a rebuilt node is ignored here, so this is the input set for cut
and uncut subsystems alike. -/
def inputIndicesT {n : ℕ} (net : NetworkT n) (i : Fin n) : Finset (Fin n) :=
  match net.cm with
  | some m => Finset.univ.filter (fun j => m j i)
  | none => Finset.univ

/-- `tpm_on` of node `i` (node.py lines 71-89): the joint tensor's column
`i` with every non-input axis averaged out. -/
def nodeTpmOn {n : ℕ} (net : NetworkT n) (i : Fin n) : Tensor n :=
  (axisList (Finset.univ \ inputIndicesT net i)).foldl margAxis
    (fun s => net.tpm s i)

/-- The stacked node tpm: `node.tpm[0]` is the off-probability
`1 - tpm_on`, `node.tpm[1]` is `tpm_on`. -/
def nodeTpm {n : ℕ} (net : NetworkT n) (i : Fin n) : Bool → Tensor n
  | true => nodeTpmOn net i
  | false => fun s => 1 - nodeTpmOn net i s

/-- The observables of a subsystem that the repertoire engine reads. -/
structure SubsysT (n : ℕ) where
  net : NetworkT n
  nodes : Finset (Fin n)
  cur : StateV n
  past : StateV n

/-- `np.sum` of a tensor whose non-`pur` axes are stored as singletons:
the full state-space sum divided by the multiplicity of each entry. -/
def npSum {n : ℕ} (pur : Finset (Fin n)) (t : Tensor n) : ℚ :=
  (∑ s : StateV n, t s) / 2 ^ (n - pur.card)

/-- Modelled from the spec: `utils.max_entropy_distribution` — the purview's
uniform distribution (each of the `2 ^ |purview|` purview states has equal
probability). -/
def maxEntropyDist {n : ℕ} (pur : Finset (Fin n)) : Tensor n :=
  fun _ => 1 / 2 ^ pur.card

/-- The factor one mechanism node contributes to the cause conditional
joint distribution (subsystem.py lines 163-203): its tpm conditioned on the
node's current state, then conditioned on the past state of the boundary
inputs (non-purview inputs outside the subsystem), then with the marginal
inputs (the remaining non-purview inputs) averaged out. -/
def causeFactor {n : ℕ} (sub : SubsysT n) (pur : Finset (Fin n))
    (i : Fin n) : Tensor n :=
  let inputs := inputIndicesT sub.net i
  let nonPurviewInputs := inputs \ pur
  let boundaryInputs := nonPurviewInputs \ sub.nodes
  let marginalInputs := nonPurviewInputs \ boundaryInputs
  let conditioned :=
    (axisList boundaryInputs).foldl
      (fun t j => condAxis t j (sub.past j)) (nodeTpm sub.net i (sub.cur i))
  (axisList marginalInputs).foldl margAxis conditioned

/-- The unnormalized conditional joint distribution `cjd`: the broadcast
product of the mechanism nodes' factors over an all-ones initial tensor. -/
def causeCjd {n : ℕ} (sub : SubsysT n) (mech pur : Finset (Fin n)) :
    Tensor n :=
  fun s => ∏ i ∈ mech, causeFactor sub pur i s

/-- `Subsystem.cause_repertoire`: empty mechanism gives the purview's
maximum-entropy distribution; empty purview the scalar 1; otherwise the cjd,
normalized unless its sum is zero. -/
def causeRepertoire {n : ℕ} (sub : SubsysT n) (mech pur : Finset (Fin n)) :
    Tensor n :=
  if mech = ∅ then maxEntropyDist pur
  else if pur = ∅ then fun _ => 1
  else
    let cjd := causeCjd sub mech pur
    let cjdSum := npSum pur cjd
    if cjdSum = 0 then cjd else fun s => cjd s / cjdSum

/-- `margAxis` on the past (conditioning) half of a two-sided tensor. -/
def margAxisE {n : ℕ} (t : TensorE n) (j : Fin n) : TensorE n :=
  fun pa fu => (t (Function.update pa j false) fu
    + t (Function.update pa j true) fu) / 2

/-- Conditioning a past axis of a two-sided tensor on the current state. -/
def condAxisE {n : ℕ} (cur : StateV n) (t : TensorE n) (j : Fin n) :
    TensorE n :=
  fun pa fu => t (Function.update pa j (cur j)) fu

/-- The factor one purview node contributes to the effect accumulator
(subsystem.py lines 257-291): its full two-sided tpm — own future-state
axis separated out — with the inputs that are inside the subsystem but not
in the mechanism averaged out. -/
def effectFactor {n : ℕ} (sub : SubsysT n) (mech : Finset (Fin n))
    (p : Fin n) : TensorE n :=
  (axisList (inputIndicesT sub.net p ∩ (sub.nodes \ mech))).foldl margAxisE
    (fun pa fu => nodeTpm sub.net p (fu p) pa)

/-- `accumulated_cjd`: the broadcast product over the purview nodes. -/
def effectAccum {n : ℕ} (sub : SubsysT n) (mech pur : Finset (Fin n)) :
    TensorE n :=
  fun pa fu => ∏ p ∈ pur, effectFactor sub mech p pa fu

/-- The boundary nodes conditioned at subsystem.py lines 296-317: inputs to
some purview node that are in the mechanism or outside the subsystem. -/
def effectBoundary {n : ℕ} (sub : SubsysT n) (mech pur : Finset (Fin n)) :
    Finset (Fin n) :=
  (pur.biUnion (fun p => inputIndicesT sub.net p))
    ∩ (mech ∪ (Finset.univ \ sub.nodes))

/-- The accumulator conditioned on the current state of the boundary
nodes. -/
def effectConditioned {n : ℕ} (sub : SubsysT n) (mech pur : Finset (Fin n)) :
    TensorE n :=
  (axisList (effectBoundary sub mech pur)).foldl (condAxisE sub.cur)
    (effectAccum sub mech pur)

/-- `Subsystem.effect_repertoire`: empty purview gives the scalar 1;
otherwise the conditioned accumulator with the (now constant) past axes
dropped — the reshape that discards the singleton first half is evaluation
of those axes at an arbitrary point. -/
def effectRepertoire {n : ℕ} (sub : SubsysT n) (mech pur : Finset (Fin n)) :
    Tensor n :=
  if pur = ∅ then fun _ => 1
  else fun fu => effectConditioned sub mech pur (fun _ => false) fu

theorem foldlPreserve {α β : Type} (P : α → Prop) (f : α → β → α)
    (hf : ∀ a b, P a → P (f a b)) :
    ∀ (l : List β) (a : α), P a → P (l.foldl f a) := by
  intro l
  induction l with
  | nil => intro a ha; exact ha
  | cons x xs ih => intro a ha; exact ih (f a x) (hf a x ha)

/-- Tensors with entries in [0, 1]. -/
def inUnitT {n : ℕ} (t : Tensor n) : Prop :=
  ∀ s, 0 ≤ t s ∧ t s ≤ 1

theorem margAxis_inUnit {n : ℕ} (t : Tensor n) (j : Fin n)
    (ht : inUnitT t) : inUnitT (margAxis t j) := by
  intro s
  obtain ⟨h1, h2⟩ := ht (Function.update s j false)
  obtain ⟨h3, h4⟩ := ht (Function.update s j true)
  constructor
  · simp only [margAxis]
    linarith
  · simp only [margAxis]
    linarith

theorem condAxis_inUnit {n : ℕ} (t : Tensor n) (j : Fin n) (b : Bool)
    (ht : inUnitT t) : inUnitT (condAxis t j b) :=
  fun s => ht (Function.update s j b)

theorem nodeTpm_inUnit {n : ℕ} (net : NetworkT n) (i : Fin n)
    (htpm : ∀ s j, 0 ≤ net.tpm s j ∧ net.tpm s j ≤ 1) :
    ∀ b, inUnitT (nodeTpm net i b) := by
  have hon : inUnitT (nodeTpmOn net i) := by
    unfold nodeTpmOn
    exact foldlPreserve inUnitT margAxis margAxis_inUnit _ _
      (fun s => htpm s i)
  intro b
  cases b with
  | true => exact hon
  | false =>
      intro s
      obtain ⟨h1, h2⟩ := hon s
      exact ⟨by simp [nodeTpm]; linarith, by simp [nodeTpm]; linarith⟩

theorem causeFactor_inUnit {n : ℕ} (sub : SubsysT n) (pur : Finset (Fin n))
    (i : Fin n)
    (htpm : ∀ s j, 0 ≤ sub.net.tpm s j ∧ sub.net.tpm s j ≤ 1) :
    inUnitT (causeFactor sub pur i) := by
  unfold causeFactor
  refine foldlPreserve inUnitT margAxis margAxis_inUnit _ _ ?_
  refine foldlPreserve inUnitT _ (fun t j ht => condAxis_inUnit t j _ ht) _ _ ?_
  exact nodeTpm_inUnit sub.net i htpm (sub.cur i)

theorem causeCjd_nonneg {n : ℕ} (sub : SubsysT n) (mech pur : Finset (Fin n))
    (htpm : ∀ s j, 0 ≤ sub.net.tpm s j ∧ sub.net.tpm s j ≤ 1) :
    ∀ s, 0 ≤ causeCjd sub mech pur s := by
  intro s
  exact Finset.prod_nonneg
    (fun i _ => (causeFactor_inUnit sub pur i htpm s).1)

theorem stateCard {n : ℕ} : Fintype.card (StateV n) = 2 ^ n := by
  simp [StateV]

theorem twoPow_ne_zero (k : ℕ) : ((2 : ℚ) ^ k) ≠ 0 :=
  pow_ne_zero k two_ne_zero

/-- Summing a function over all states equals summing its two restrictions
along any one coordinate. -/
theorem sum_pair_split {n : ℕ} (a : Fin n) (g : StateV n → ℚ) :
    (2 : ℚ) * ∑ s : StateV n, g s
      = ∑ s : StateV n,
          (g (Function.update s a false) + g (Function.update s a true)) := by
  have hinv : Function.Involutive
      (fun s : StateV n => Function.update s a (!(s a))) := by
    intro s
    funext x
    by_cases hx : x = a
    · subst hx
      simp
    · simp [Function.update_noteq hx]
  have hswap : ∑ s : StateV n, g (Function.update s a (!(s a)))
      = ∑ s : StateV n, g s :=
    Equiv.sum_comp (Function.Involutive.toPerm _ hinv) g
  have hpt : ∀ s : StateV n,
      g s + g (Function.update s a (!(s a)))
        = g (Function.update s a false) + g (Function.update s a true) := by
    intro s
    cases hb : s a with
    | false =>
        have h1 : Function.update s a false = s := by
          rw [← hb]
          exact Function.update_eq_self a s
        simp only [Bool.not_false, h1]
    | true =>
        have h1 : Function.update s a true = s := by
          rw [← hb]
          exact Function.update_eq_self a s
        simp only [Bool.not_true, h1]
        ring
  calc (2 : ℚ) * ∑ s : StateV n, g s
      = (∑ s : StateV n, g s)
        + ∑ s : StateV n, g (Function.update s a (!(s a))) := by
        rw [hswap]; ring
    _ = ∑ s : StateV n,
          (g s + g (Function.update s a (!(s a)))) := by
        rw [← Finset.sum_add_distrib]
    _ = ∑ s : StateV n,
          (g (Function.update s a false) + g (Function.update s a true)) := by
        exact Finset.sum_congr rfl (fun s _ => hpt s)

/-- Product-of-independent-pair-sums lemma: if each factor depends only on
its own coordinate and its two values sum to 1, the total sum over all
states is the multiplicity of the remaining coordinates. -/
theorem sum_prod_indicator {n : ℕ} (S : Finset (Fin n))
    (F : Fin n → StateV n → ℚ)
    (hdep : ∀ p ∈ S, ∀ s s' : StateV n, s p = s' p → F p s = F p s')
    (hpair : ∀ p ∈ S, ∀ s : StateV n,
      F p (Function.update s p false) + F p (Function.update s p true) = 1) :
    ∑ s : StateV n, ∏ p ∈ S, F p s = 2 ^ (n - S.card) := by
  classical
  revert hdep hpair
  induction S using Finset.induction_on with
  | empty =>
      intro _ _
      simp only [Finset.prod_empty, Finset.card_empty, Nat.sub_zero]
      rw [Finset.sum_const, Finset.card_univ, stateCard, nsmul_eq_mul]
      push_cast
      ring
  | @insert a S ha ih =>
      intro hdep hpair
      have hdepS : ∀ p ∈ S, ∀ s s' : StateV n, s p = s' p → F p s = F p s' :=
        fun p hp => hdep p (Finset.mem_insert_of_mem hp)
      have hpairS : ∀ p ∈ S, ∀ s : StateV n,
          F p (Function.update s p false) + F p (Function.update s p true) = 1 :=
        fun p hp => hpair p (Finset.mem_insert_of_mem hp)
      have hS := ih hdepS hpairS
      have hcardle : S.card + 1 ≤ n := by
        have h := Finset.card_le_univ (insert a S)
        rwa [Finset.card_insert_of_not_mem ha, Fintype.card_fin] at h
      have hprod : ∀ (s : StateV n) (b : Bool),
          ∏ p ∈ S, F p (Function.update s a b) = ∏ p ∈ S, F p s := by
        intro s b
        refine Finset.prod_congr rfl (fun p hp => ?_)
        have hpa : p ≠ a := fun h => ha (h ▸ hp)
        exact hdepS p hp _ _ (Function.update_noteq hpa b s)
      have hkey : (2 : ℚ) * ∑ s : StateV n, ∏ p ∈ insert a S, F p s
          = ∑ s : StateV n, ∏ p ∈ S, F p s := by
        rw [sum_pair_split a]
        refine Finset.sum_congr rfl (fun s _ => ?_)
        rw [Finset.prod_insert ha, Finset.prod_insert ha, hprod s false,
          hprod s true, ← add_mul, hpair a (Finset.mem_insert_self a S)]
        ring
      have hsub : n - S.card = (n - (insert a S).card) + 1 := by
        rw [Finset.card_insert_of_not_mem ha]
        omega
      rw [hS, hsub, pow_succ] at hkey
      have h2 : (2 : ℚ) ≠ 0 := two_ne_zero
      calc ∑ s : StateV n, ∏ p ∈ insert a S, F p s
          = ((2 : ℚ) * ∑ s : StateV n, ∏ p ∈ insert a S, F p s) / 2 := by
            field_simp
        _ = 2 ^ (n - (insert a S).card) := by
            rw [hkey]
            field_simp

theorem effectFactor_dep {n : ℕ} (sub : SubsysT n) (mech : Finset (Fin n))
    (p : Fin n) :
    ∀ (pa fu fu' : StateV n), fu p = fu' p →
      effectFactor sub mech p pa fu = effectFactor sub mech p pa fu' := by
  have hfold : ∀ (l : List (Fin n)) (t : TensorE n),
      (∀ pa fu fu', fu p = fu' p → t pa fu = t pa fu') →
      ∀ pa fu fu', fu p = fu' p →
        (l.foldl margAxisE t) pa fu = (l.foldl margAxisE t) pa fu' := by
    intro l
    induction l with
    | nil => intro t ht; exact ht
    | cons j js ih =>
        intro t ht
        refine ih (margAxisE t j) ?_
        intro pa fu fu' h
        simp only [margAxisE]
        rw [ht _ _ _ h, ht _ _ _ h]
  intro pa fu fu' h
  exact hfold _ _ (fun pa fu fu' h => by simp only [h]) pa fu fu' h

theorem effectFactor_pair {n : ℕ} (sub : SubsysT n) (mech : Finset (Fin n))
    (p : Fin n) :
    ∀ (pa fu : StateV n),
      effectFactor sub mech p pa (Function.update fu p false)
        + effectFactor sub mech p pa (Function.update fu p true) = 1 := by
  have hfold : ∀ (l : List (Fin n)) (t : TensorE n),
      (∀ pa fu, t pa (Function.update fu p false)
        + t pa (Function.update fu p true) = 1) →
      ∀ pa fu, (l.foldl margAxisE t) pa (Function.update fu p false)
        + (l.foldl margAxisE t) pa (Function.update fu p true) = 1 := by
    intro l
    induction l with
    | nil => intro t ht; exact ht
    | cons j js ih =>
        intro t ht
        refine ih (margAxisE t j) ?_
        intro pa fu
        simp only [margAxisE]
        have h1 := ht (Function.update pa j false) fu
        have h2 := ht (Function.update pa j true) fu
        linarith
  refine hfold _ _ ?_
  intro pa fu
  simp only [Function.update_same]
  simp only [nodeTpm]
  ring

theorem condFold_exists {n : ℕ} (cur : StateV n) :
    ∀ (l : List (Fin n)) (t : TensorE n), ∃ F : StateV n → StateV n,
      ∀ pa fu, (l.foldl (condAxisE cur) t) pa fu = t (F pa) fu := by
  intro l
  induction l with
  | nil =>
      intro t
      exact ⟨id, fun pa fu => rfl⟩
  | cons j js ih =>
      intro t
      obtain ⟨F, hF⟩ := ih (condAxisE cur t j)
      exact ⟨fun pa => Function.update (F pa) j (cur j), fun pa fu => hF pa fu⟩

theorem effect_npSum_one {n : ℕ} (sub : SubsysT n)
    (mech pur : Finset (Fin n)) :
    npSum pur (effectRepertoire sub mech pur) = 1 := by
  classical
  by_cases hp : pur = ∅
  · subst hp
    have h1 : effectRepertoire sub mech (∅ : Finset (Fin n)) = fun _ => 1 := by
      simp [effectRepertoire]
    rw [h1]
    simp only [npSum, Finset.card_empty, Nat.sub_zero]
    rw [Finset.sum_const, Finset.card_univ, stateCard, nsmul_eq_mul]
    push_cast
    field_simp
  · simp only [effectRepertoire, if_neg hp]
    obtain ⟨F, hF⟩ := condFold_exists sub.cur
      (axisList (effectBoundary sub mech pur)) (effectAccum sub mech pur)
    have hres : ∀ fu : StateV n,
        effectConditioned sub mech pur (fun _ => false) fu
          = ∏ p ∈ pur, effectFactor sub mech p (F (fun _ => false)) fu := by
      intro fu
      exact hF (fun _ => false) fu
    unfold npSum
    have hsum : ∑ fu : StateV n,
        effectConditioned sub mech pur (fun _ => false) fu
          = 2 ^ (n - pur.card) := by
      rw [Finset.sum_congr rfl (fun fu _ => hres fu)]
      exact sum_prod_indicator pur
        (fun p fu => effectFactor sub mech p (F (fun _ => false)) fu)
        (fun p _ s s' h => effectFactor_dep sub mech p _ s s' h)
        (fun p _ s => effectFactor_pair sub mech p _ s)
    rw [hsum]
    exact div_self (twoPow_ne_zero _)

theorem npSum_const_one {n : ℕ} :
    npSum (∅ : Finset (Fin n)) (fun _ => 1) = 1 := by
  simp only [npSum, Finset.card_empty, Nat.sub_zero]
  rw [Finset.sum_const, Finset.card_univ, stateCard, nsmul_eq_mul]
  push_cast
  field_simp

theorem npSum_maxEnt {n : ℕ} (pur : Finset (Fin n)) :
    npSum pur (maxEntropyDist pur) = 1 := by
  unfold npSum maxEntropyDist
  rw [Finset.sum_const, Finset.card_univ, stateCard, nsmul_eq_mul]
  have hle : pur.card ≤ n := by
    have h := Finset.card_le_univ pur
    rwa [Fintype.card_fin] at h
  have hsplit : (2 : ℚ) ^ n = 2 ^ pur.card * 2 ^ (n - pur.card) := by
    rw [← pow_add]
    congr 1
    omega
  push_cast
  rw [hsplit]
  have h1 := twoPow_ne_zero pur.card
  have h2 := twoPow_ne_zero (n - pur.card)
  field_simp

theorem npSum_div {n : ℕ} (pur : Finset (Fin n)) (t : Tensor n) (c : ℚ) :
    npSum pur (fun s => t s / c) = npSum pur t / c := by
  unfold npSum
  rw [← Finset.sum_div]
  ring

/-- C8: in both directions an empty purview yields exactly the scalar-1
repertoire; whenever the returned repertoire's unnormalized sum is nonzero
it sums to 1 (the effect repertoire always sums to 1 — each purview node's
off/on tables sum to 1 pointwise, and averaging and conditioning preserve
that); and a zero-sum conditional joint distribution makes
`cause_repertoire` skip normalization and return the (then identically
zero, by nonnegativity of the factors) tensor, no branch raising. -/
theorem C8_repertoire_normalization {n : ℕ} (sub : SubsysT n)
    (mech pur : Finset (Fin n))
    (htpm : ∀ s j, 0 ≤ sub.net.tpm s j ∧ sub.net.tpm s j ≤ 1) :
    (causeRepertoire sub mech ∅ = fun _ => 1)
    ∧ (effectRepertoire sub mech ∅ = fun _ => 1)
    ∧ (npSum pur (causeRepertoire sub mech pur) ≠ 0 →
        npSum pur (causeRepertoire sub mech pur) = 1)
    ∧ npSum pur (effectRepertoire sub mech pur) = 1
    ∧ (mech ≠ ∅ → pur ≠ ∅ → npSum pur (causeCjd sub mech pur) = 0 →
        causeRepertoire sub mech pur = causeCjd sub mech pur
        ∧ ∀ s, causeCjd sub mech pur s = 0) := by
  classical
  refine ⟨?_, ?_, ?_, effect_npSum_one sub mech pur, ?_⟩
  · by_cases hm : mech = ∅
    · funext s
      simp [causeRepertoire, hm, maxEntropyDist]
    · funext s
      simp [causeRepertoire, hm]
  · simp [effectRepertoire]
  · intro hne
    by_cases hm : mech = ∅
    · simp only [causeRepertoire, if_pos hm]
      exact npSum_maxEnt pur
    · by_cases hp : pur = ∅
      · subst hp
        simp only [causeRepertoire, if_neg hm, if_pos rfl]
        simpa using npSum_const_one
      · simp only [causeRepertoire, if_neg hm, if_neg hp] at hne ⊢
        by_cases hz : npSum pur (causeCjd sub mech pur) = 0
        · rw [if_pos hz] at hne ⊢
          exact absurd hz hne
        · rw [if_neg hz] at hne ⊢
          rw [npSum_div]
          exact div_self hz
  · intro hm hp h0
    have hrep : causeRepertoire sub mech pur = causeCjd sub mech pur := by
      simp only [causeRepertoire, if_neg hm, if_neg hp]
      rw [if_pos h0]
    refine ⟨hrep, ?_⟩
    have hsum : ∑ s : StateV n, causeCjd sub mech pur s = 0 := by
      unfold npSum at h0
      rcases div_eq_zero_iff.mp h0 with h | h
      · exact h
      · exact absurd h (twoPow_ne_zero _)
    intro s
    exact (Finset.sum_eq_zero_iff_of_nonneg
      (fun s _ => causeCjd_nonneg sub mech pur htpm s)).mp hsum s
      (Finset.mem_univ s)

/-- A concrete two-node subsystem for the C8 witness: the deterministic
copy tpm (node `j` is on next exactly when it is on now), the chain
adjacency matrix, both states all-off. -/
def subEx : SubsysT 2 :=
  { net := { tpm := fun s j => if s j then 1 else 0, cm := some cmChain2 },
    nodes := Finset.univ,
    cur := fun _ => false,
    past := fun _ => false }

/-- Witness for C8 at the concrete two-node subsystem, mechanism `{0}`,
purview `{1}`. -/
theorem C8_repertoire_normalization_witness :
    (∀ (s : StateV 2) (j : Fin 2),
      0 ≤ subEx.net.tpm s j ∧ subEx.net.tpm s j ≤ 1)
    ∧ ((causeRepertoire subEx {0} ∅ = fun _ => 1)
      ∧ (effectRepertoire subEx {0} ∅ = fun _ => 1)
      ∧ (npSum {1} (causeRepertoire subEx {0} {1}) ≠ 0 →
          npSum {1} (causeRepertoire subEx {0} {1}) = 1)
      ∧ npSum {1} (effectRepertoire subEx {0} {1}) = 1
      ∧ (({0} : Finset (Fin 2)) ≠ ∅ → ({1} : Finset (Fin 2)) ≠ ∅ →
          npSum {1} (causeCjd subEx {0} {1}) = 0 →
          causeRepertoire subEx {0} {1} = causeCjd subEx {0} {1}
          ∧ ∀ s, causeCjd subEx {0} {1} s = 0)) :=
  ⟨by decide, C8_repertoire_normalization subEx {0} {1} (by decide)⟩

end Cyphi
